import Mathlib

/-!
Shallow embedding of the spec-discovery subsystem of
`packages/data-context/src/sources/ProjectDataSource.ts`:
`transformSpec`, `getLongestCommonPrefixFromPaths`, `getLongestCommonPrefixFromGlob`,
and the `ProjectDataSource` methods `defaultSpecFileName`, `matchesSpecPattern`,
`startSpecWatcher`, `stopSpecWatcher`, together with proofs about them.

JavaScript strings are modelled as Lean `String`s (lists of characters), JS arrays as
Lean lists; a JS array with holes (created by `delete arr[i]`) is a `List (Option _)`
where a hole or an out-of-bounds read is `none` (JS `undefined`).  Third-party library
calls (Node `path`, `parse-glob`, `micromatch`, `RandExp`, `minimatch`, `chokidar`) are
modelled by small Lean functions documented at their definitions, faithful to the
library behaviour on the input shapes this code produces.
-/

namespace Cypress

/-- Characters treated as path separators by `getPathParts`, which splits on the
regular expression character class containing the forward and the backward slash. -/
def isSepChar (c : Char) : Bool := c = '/' || c = '\\'

/-- JS `String.prototype.split` on that separator class: split at every separator
character, keeping empty segments; the empty string yields one empty segment. -/
def splitParts : List Char → List (List Char)
  | [] => [[]]
  | c :: rest =>
    if isSepChar c then [] :: splitParts rest
    else
      match splitParts rest with
      | [] => [[c]]
      | p :: ps => (c :: p) :: ps

/-- `getPathParts` from `getLongestCommonPrefixFromPaths`: `pathname.split(/[/\x5c\x5c]/g)`. -/
def getPathParts (pathname : String) : List String :=
  (splitParts pathname.data).map (fun cs => String.mk cs)

/-- `beginsWith pat s` is true when `pat` is an initial segment of `s`; used to model
JS substring search inside `String.prototype.replace` and `indexOf`. -/
def beginsWith : List Char → List Char → Bool
  | [], _ => true
  | _ :: _, [] => false
  | a :: as, b :: bs => if a = b then beginsWith as bs else false

/-- Index of the first occurrence of `pat` inside `s`, when there is one (JS
`String.prototype.indexOf`; an empty pattern occurs at position 0). -/
def firstIdxOfSub (pat : List Char) : List Char → Option Nat
  | [] => if beginsWith pat [] then some 0 else none
  | c :: rest =>
    if beginsWith pat (c :: rest) then some 0
    else (firstIdxOfSub pat rest).map (fun k => k + 1)

/-- JS `String.prototype.replace` with a string pattern: only the first occurrence is
replaced; an empty pattern matches at position 0; when the pattern does not occur the
string is returned unchanged. -/
def replaceFirstAux (pat repl : List Char) : List Char → List Char
  | [] => if beginsWith pat [] then repl else []
  | c :: rest =>
    if beginsWith pat (c :: rest) then repl ++ (c :: rest).drop pat.length
    else c :: replaceFirstAux pat repl rest

/-- String-level wrapper for `replaceFirstAux`: `s.replace(pat, repl)` in JS. -/
def replaceFirst (s pat repl : String) : String :=
  String.mk (replaceFirstAux pat.data repl.data s.data)

/-- JS `String.prototype.replace` with the regular expression matching every asterisk
globally (`replaceWildCard` in the source): each asterisk becomes `fallback`. -/
def replaceStar (s : String) (fallback : String) : String :=
  String.mk ((s.data.map (fun c => if c = '*' then fallback.data else [c])).flatten)

/-- Last index of a character in a list, when present. -/
def lastIdxOf (t : Char) : List Char → Option Nat
  | [] => none
  | c :: rest =>
    match lastIdxOf t rest with
    | some i => some (i + 1)
    | none => if c = t then some 0 else none

/-- JS `String.prototype.endsWith`. -/
def strEndsWith (s p : String) : Bool :=
  beginsWith p.data.reverse s.data.reverse

/-- JS `String.prototype.startsWith`. -/
def strStartsWith (s p : String) : Bool :=
  beginsWith p.data s.data

/-- JS `String.prototype.slice(n)` for a non-negative start: drop `n` characters. -/
def strDrop (s : String) (n : Nat) : String := String.mk (s.data.drop n)

/-- JS `String.prototype.slice(0, -n)`: drop `n` characters from the end. -/
def strDropRight (s : String) (n : Nat) : String :=
  String.mk (s.data.take (s.data.length - n))

/-- Split at every occurrence of one character, keeping empty segments (JS
`String.prototype.split` with a one-character separator). -/
def splitOnChar (t : Char) : List Char → List (List Char)
  | [] => [[]]
  | c :: rest =>
    if c = t then [] :: splitOnChar t rest
    else
      match splitOnChar t rest with
      | [] => [[c]]
      | p :: ps => (c :: p) :: ps

/-- String-level wrapper for `splitOnChar`. -/
def strSplitOnChar (s : String) (t : Char) : List String :=
  (splitOnChar t s.data).map (fun cs => String.mk cs)

/-- JS `String.prototype.split` with a string separator, on fuel (the initial fuel,
the string length plus one, always suffices).  An empty separator splits into single
characters, as in JS. -/
def splitOnSubFuel (sep : List Char) : Nat → List Char → List (List Char)
  | 0, s => [s]
  | _, [] => [[]]
  | fuel + 1, c :: rest =>
    if sep = [] then (c :: rest).map (fun x => [x])
    else if beginsWith sep (c :: rest) then
      [] :: splitOnSubFuel sep fuel ((c :: rest).drop sep.length)
    else
      match splitOnSubFuel sep fuel rest with
      | [] => [[c]]
      | p :: ps => (c :: p) :: ps

/-- JS `String.prototype.split` with a string separator. -/
def strSplitOnSub (s sep : String) : List String :=
  (splitOnSubFuel sep.data (s.data.length + 1) s.data).map (fun cs => String.mk cs)

/-- Everything after the last slash (the whole string when it has no slash). -/
def afterLastSlash (p : String) : String :=
  ((strSplitOnChar p '/').getLast?).getD ""

/-- Models Node `path.parse(p).base` (posix) for paths without trailing slashes — the
only shape this code feeds it: the component after the last slash. -/
def basenameOf (p : String) : String := afterLastSlash p

/-- Models Node `path.extname` (posix): the suffix of the basename starting at its last
dot; empty when the basename has no dot, when that dot is its first character, or for
the special basename consisting of two dots. -/
def extnameOf (p : String) : String :=
  let b := basenameOf p
  if b = ".." then ""
  else
    match lastIdxOf '.' b.data with
    | none => ""
    | some 0 => ""
    | some (i + 1) => String.mk (b.data.drop (i + 1))

/-- Number of leading positions at which two lists agree. -/
def commonPrefixLen : List String → List String → Nat
  | a :: as, b :: bs => if a = b then commonPrefixLen as bs + 1 else 0
  | _, _ => 0

/-- `TestingType` from `@packages/types`: the two testing-type tags. -/
inductive TestingType where
  | e2e
  | component
  deriving DecidableEq

/-- The string a `TestingType` prints as. -/
def ttToString : TestingType → String
  | TestingType.e2e => "e2e"
  | TestingType.component => "component"

/-- String interpolation of `coreData.currentTestingType` into the template literal at
the top of `defaultSpecFileName`: a null value prints as "null". -/
def ttInterp : Option TestingType → String
  | none => "null"
  | some tt => ttToString tt

/-- Modelled from the spec: `toPosix` from `../util/file` (not part of this excerpt),
the Path Normalizer of section 4.1 — replace every occurrence of the native separator
with the forward slash. -/
def toPosix (file : String) (sep : String) : String :=
  String.intercalate "/" (strSplitOnSub file sep)

/-- Models Node `path.relative` (posix) for the already-absolute, dot-segment-free
paths this code feeds it: strip the shared leading segments, climb out of the
remaining `fromPath` segments, then descend into the remaining `toPath` segments. -/
def pathRelative (fromPath toPath : String) : String :=
  let f := (strSplitOnChar fromPath '/').filter (fun seg => seg ≠ "")
  let t := (strSplitOnChar toPath '/').filter (fun seg => seg ≠ "")
  let k := commonPrefixLen f t
  String.intercalate "/" (List.replicate (f.length - k) ".." ++ t.drop k)

/-- The argument record of `transformSpec`. -/
structure TransformSpecArg where
  projectRoot : String
  absolute : String
  testingType : TestingType
  commonRoot : String
  platform : String
  sep : String
  deriving DecidableEq

/-- `SpecWithRelativeRoot`: the spec descriptor produced by `transformSpec`. -/
structure SpecWithRelativeRoot where
  fileExtension : String
  baseName : String
  fileName : String
  specFileExtension : String
  relativeToCommonRoot : String
  specType : String
  name : String
  relative : String
  absolute : String
  deriving DecidableEq

/-- `transformSpec` from the source.  The `relativeToCommonRoot` step models the
regular expression `LEADING_SLASH` of the source, which matches either a leading
forward slash or the empty string and therefore just strips one leading slash. -/
def transformSpec (arg : TransformSpecArg) : SpecWithRelativeRoot :=
  let absolute := if arg.platform = "win32" then toPosix arg.absolute arg.sep else arg.absolute
  let projectRoot :=
    if arg.platform = "win32" then toPosix arg.projectRoot arg.sep else arg.projectRoot
  let relative := pathRelative projectRoot absolute
  let base := basenameOf absolute
  let fileExtension := extnameOf absolute
  let specFileExtension :=
    (([".spec", ".test", "-spec", "-test", ".cy"].map (fun e => e ++ fileExtension)).find?
      (fun e => strEndsWith absolute e)).getD fileExtension
  let parts := strSplitOnSub absolute projectRoot
  let name0 := (parts.getLast?).getD ""
  let name := if strStartsWith name0 "/" then strDrop name0 1 else name0
  let rtcr0 := replaceFirst absolute arg.commonRoot ""
  let relativeToCommonRoot := if strStartsWith rtcr0 "/" then strDrop rtcr0 1 else rtcr0
  { fileExtension := fileExtension
    baseName := base
    fileName := replaceFirst base specFileExtension ""
    specFileExtension := specFileExtension
    relativeToCommonRoot := relativeToCommonRoot
    specType := if arg.testingType = TestingType.component then "component" else "integration"
    name := name
    relative := relative
    absolute := absolute }

/-- One iteration of the inner loop of `getLongestCommonPrefixFromPaths`: compare
`lcp[i]` (a hole or an out-of-range read is `none`) with `pathParts[i]`; on a mismatch
record `i` as the new bound and delete `lcp[i]` (deleting an out-of-range index is a
no-op on the list, exactly as `List.set` is). -/
def lcpStep (parts : List String) (st : List (Option String) × Nat) (i : Nat) :
    List (Option String) × Nat :=
  if st.1.getD i none = some (parts.getD i "") then st else (st.1.set i none, i)

/-- The inner loop of `getLongestCommonPrefixFromPaths`, running `i` from `m - 1` down
to `0`. -/
def scanFrom (parts : List String) : Nat → List (Option String) × Nat → List (Option String) × Nat
  | 0, st => st
  | m + 1, st => scanFrom parts m (lcpStep parts st m)

/-- The outer loop of `getLongestCommonPrefixFromPaths` over `paths.slice(1)`, ending
with `lcp.slice(0, end).join(sep)`, where a hole joins as the empty string.  The
`length = 0` early return of the source is reproduced although it can never fire. -/
def lcpFiles : List String → List (Option String) → Nat → String
  | [], lcp, e => String.intercalate "/" ((lcp.take e).map (fun o => o.getD ""))
  | f :: fs, lcp, e =>
    let parts := getPathParts f
    let st := scanFrom parts parts.length (lcp, e)
    if st.1.length = 0 then "" else lcpFiles fs st.1 st.2

/-- `getLongestCommonPrefixFromPaths` from the source; `path.sep` is the posix
separator here. -/
def getLongestCommonPrefixFromPaths (paths : List String) : String :=
  match paths with
  | [] => ""
  | p :: ps =>
    if p = "" then ""
    else if ps = [] then String.intercalate "/" ((getPathParts p).dropLast)
    else lcpFiles ps ((getPathParts p).map some) (getPathParts p).length

/-- The opening curly bracket character. -/
def lbrace : Char := Char.ofNat 123

/-- The closing curly bracket character. -/
def rbrace : Char := Char.ofNat 125

/-- Models parse-glob's `is.glob` test: the pattern contains glob special characters. -/
def isGlobPattern (s : String) : Bool :=
  s.data.any (fun c =>
    c = '*' || c = '?' || c = lbrace || c = rbrace || c = '[' || c = ']' ||
    c = '!' || c = '(' || c = ')')

/-- Models parse-glob's `path.dirname`: everything up to and including the last slash
(empty when the pattern has no slash). -/
def parseGlobDirname (g : String) : String :=
  match lastIdxOf '/' g.data with
  | none => ""
  | some i => String.mk (g.data.take (i + 1))

/-- Models parse-glob's `path.basename`: everything after the last slash. -/
def parseGlobBasename (g : String) : String :=
  match lastIdxOf '/' g.data with
  | none => g
  | some i => String.mk (g.data.drop (i + 1))

/-- Models parse-glob's `path.filename`: the basename up to its first dot. -/
def parseGlobFilename (g : String) : String :=
  let b := parseGlobBasename g
  match firstIdxOfSub ['.'] b.data with
  | none => b
  | some i => String.mk (b.data.take i)

/-- Models parse-glob's `path.extname`: the basename from its first dot on. -/
def parseGlobExtname (g : String) : String :=
  let b := parseGlobBasename g
  match firstIdxOfSub ['.'] b.data with
  | none => ""
  | some i => String.mk (b.data.drop i)

/-- Models parse-glob's `path.ext`: the part of `extname` after its last dot. -/
def parseGlobExt (g : String) : String :=
  let e := parseGlobExtname g
  match lastIdxOf '.' e.data with
  | none => ""
  | some i => String.mk (e.data.drop (i + 1))

/-- Models `micromatch.braces(glob, expand)` for the simple, non-nested brace groups
the handled spec patterns contain: expand the leftmost group, splitting its body on
commas, and recurse on each expansion; a pattern without braces expands to itself.
Fuel bounds the recursion; the initial fuel (the string length) always suffices since
every expansion is strictly shorter than its input. -/
def bracesExpandFuel : Nat → String → List String
  | 0, s => [s]
  | fuel + 1, s =>
    match firstIdxOfSub [lbrace] s.data with
    | none => [s]
    | some i =>
      let before := s.data.take i
      let afterOpen := s.data.drop (i + 1)
      match firstIdxOfSub [rbrace] afterOpen with
      | none => [s]
      | some j =>
        let body := afterOpen.take j
        let suffix := afterOpen.drop (j + 1)
        let alts := strSplitOnChar (String.mk body) ','
        ((alts.map (fun a =>
          bracesExpandFuel fuel (String.mk before ++ a ++ String.mk suffix))).flatten)

/-- Brace expansion with enough fuel for any input. -/
def bracesExpand (s : String) : List String := bracesExpandFuel s.data.length s

/-- Models the micromatch filter predicate for the pattern `*.<ext>` with basename
matching enabled: the basename must end in the dotted extension and, since the
wildcard does not match a leading dot, must not start with a dot. -/
def mmBasenameStarDotExt (g : String) (ext : String) : Bool :=
  let b := afterLastSlash g
  strEndsWith b ("." ++ ext) && !(strStartsWith b ".")

/-- Unescapes a regex-literal pattern: a backslash makes the next character literal;
all other characters pass through. -/
def unescapeRegexLiteral : List Char → List Char
  | [] => []
  | '\\' :: c :: rest => c :: unescapeRegexLiteral rest
  | c :: rest => c :: unescapeRegexLiteral rest

/-- `finalGlob.replace(dot-regex-global, escaped dot)`: every dot gets a backslash. -/
def escapeDots (s : String) : String :=
  String.mk ((s.data.map (fun c => if c = '.' then ['\\', '.'] else [c])).flatten)

/-- Models `new RandExp(pattern).gen()` for the patterns produced below: after every
dot is escaped they contain no other regex metacharacters, so generation is
deterministic and yields the literal string.  We model exactly that literal reading
(RandExp would randomise genuinely non-literal patterns). -/
def randExpGen (s : String) : String := String.mk (unescapeRegexLiteral s.data)

/-- `getLongestCommonPrefixFromGlob` from the source.  A JS `undefined` return is
`none`; the final falsy test on `finalGlob` also catches the empty string. -/
def getLongestCommonPrefixFromGlob (inputGlob : String) (testingType : TestingType)
    (fileExtensionToUse : Option String) : Option String :=
  if !(isGlobPattern inputGlob) then some inputGlob
  else
    let dirname0 := parseGlobDirname inputGlob
    let dirname :=
      if strStartsWith dirname0 "**" then replaceFirst dirname0 "**" "cypress" else dirname0
    let splittedDirname :=
      String.intercalate "/"
        (((strSplitOnChar dirname '/').filter (fun seg => seg ≠ "**")).map
          (fun x => replaceStar x (ttToString testingType)))
    let fileName := replaceStar (parseGlobFilename inputGlob) "filename"
    let extnameWithoutExt := replaceFirst (parseGlobExtname inputGlob) (parseGlobExt inputGlob) ""
    let extname1 := replaceStar extnameWithoutExt "cy"
    let extname2 := if strStartsWith extname1 "." then strDrop extname1 1 else extname1
    let extname3 := if strEndsWith extname2 "." then strDropRight extname2 1 else extname2
    let basename :=
      String.intercalate "." (([fileName, extname3, parseGlobExt inputGlob]).filter
        (fun x => x ≠ ""))
    let glob := splittedDirname ++ basename
    let globWithoutBraces := bracesExpand glob
    let finalGlob0 := globWithoutBraces.head?
    let finalGlob :=
      match fileExtensionToUse with
      | none => finalGlob0
      | some ext =>
        let filteredGlob := globWithoutBraces.filter (fun g => mmBasenameStarDotExt g ext)
        if filteredGlob.length ≠ 0 then filteredGlob.head? else finalGlob0
    match finalGlob with
    | none => none
    | some fg => if fg = "" then none else some (randExpGen (escapeDots fg))

/-- `specPattern` / `excludeSpecPattern` in the resolved config: a string, an array of
strings, or absent. -/
inductive StrOrList where
  | str (s : String)
  | list (l : List String)
  deriving DecidableEq

/-- `toArray` inside `specPatterns()`: a truthy string becomes a one-element array, an
array passes through, anything falsy (absent or the empty string) becomes undefined. -/
def toArray : Option StrOrList → Option (List String)
  | none => none
  | some (StrOrList.str s) => if s = "" then none else some [s]
  | some (StrOrList.list l) => some l

/-- `FoundSpec` from `@packages/types`, reduced to the single field this code reads. -/
structure FoundSpec where
  relative : String
  deriving DecidableEq

/-- Modelled from the spec: `defaultSpecPattern` from `@packages/config` (not part of
this excerpt) — the built-in default spec pattern for each testing type. -/
def defaultSpecPattern : TestingType → String
  | TestingType.e2e => "cypress/e2e/**/*.cy.\x7bjs,jsx,ts,tsx\x7d"
  | TestingType.component => "**/*.cy.\x7bjs,jsx,ts,tsx\x7d"

/-- An abstract chokidar `FSWatcher` handle. -/
structure Watcher where
  id : Nat
  deriving DecidableEq

/-- The slice of the `DataContext` state that `ProjectDataSource` reads and writes:
the current project and testing type, the configured patterns, the file extension the
lifecycle manager reports, the stored spec list and the private watcher field. -/
structure DataState where
  currentProject : Option String
  currentTestingType : Option TestingType
  fileExtensionToUse : String
  configSpecPattern : Option StrOrList
  configExcludeSpecPattern : Option StrOrList
  specs : List FoundSpec
  specWatcher : Option Watcher
  deriving DecidableEq

/-- `specPatterns()`: the toArray-normalised pair of include and exclude patterns. -/
def specPatterns (s : DataState) : Option (List String) × Option (List String) :=
  (toArray s.configSpecPattern, toArray s.configExcludeSpecPattern)

/-- `defaultSpecFileName` from the source.  The template literal is evaluated before
the readiness check, exactly as in the source (including its trailing slash); a JS
null return is `none`.  The try/catch of the source cannot fire in this total
embedding, so the catch branch has no counterpart. -/
def defaultSpecFileName (s : DataState) : Option String :=
  let defaultFilename :=
    "cypress/" ++ ttInterp s.currentTestingType ++ "/filename.cy." ++ s.fileExtensionToUse ++ "/"
  match s.currentProject, s.currentTestingType with
  | some _, some tt =>
    let specPattern := ((specPatterns s).1).getD []
    match specPattern.head? with
    | none => some defaultFilename
    | some p =>
      if p = "" then some defaultFilename
      else if p = defaultSpecPattern tt then some defaultFilename
      else
        let filenameFromSpecs :=
          getLongestCommonPrefixFromPaths (s.specs.map (fun sp => sp.relative))
        if filenameFromSpecs ≠ "" then some filenameFromSpecs
        else
          match getLongestCommonPrefixFromGlob p tt (some s.fileExtensionToUse) with
          | some g => if g ≠ "" then some g else some defaultFilename
          | none => some defaultFilename
  | _, _ => none

/-- `matchesSpecPattern` from the source, parameterised by the matcher `mmf`, which
models the external minimatch library called with dot and matchBase enabled: exclude
patterns are tried first and any match returns false; otherwise include patterns are
tried in order and the first match returns true. -/
def matchesSpecPattern (mmf : String → String → Bool) (s : DataState) (specFile : String) :
    Bool :=
  match s.currentProject, s.currentTestingType with
  | some _, some _ =>
    let specPattern := ((specPatterns s).1).getD []
    let excludeSpecPattern := ((specPatterns s).2).getD []
    if excludeSpecPattern.any (fun pat => mmf specFile pat) then false
    else specPattern.any (fun pat => mmf specFile pat)
  | _, _ => false

/-- `stopSpecWatcher` from the source, returning the updated state paired with the
exception it rises, if any — always `none` here: with no watcher running it is a
no-op, and otherwise the rejection of the watcher's close promise (the environment's
choice, represented by `closeFails`) is swallowed by the catch with the empty handler
before the field is cleared. -/
def stopSpecWatcher (closeFails : Bool) (s : DataState) : DataState × Option String :=
  match s.specWatcher with
  | none => (s, none)
  | some _ =>
    let closeResult : Except String Unit :=
      if closeFails then Except.error "close failed" else Except.ok ()
    let _ : Unit :=
      match closeResult with
      | Except.ok u => u
      | Except.error _ => ()
    ({ s with specWatcher := none }, none)

/-- `startSpecWatcher` from the source, returning the updated state paired with the
exception it throws, if any.  It stops any previous watcher first, then validates the
current project, then installs a fresh chokidar watcher (`watchHandle`, the external
watch call's result).  The debounced change callback and the chokidar options are
external event wiring with no observable effect on this state; the remaining
parameters are retained for signature fidelity. -/
def startSpecWatcher (closeFails : Bool) (watchHandle : Watcher) (projectRoot : String)
    (testingType : TestingType) (specPattern excludeSpecPattern additionalIgnore : List String)
    (s : DataState) : DataState × Option String :=
  let s1 := (stopSpecWatcher closeFails s).1
  match s1.currentProject with
  | none => (s1, some "Cannot start spec watcher without current project")
  | some _ => ({ s1 with specWatcher := some watchHandle }, none)

/-! ### Closed forms of the destructive inner loop, for the C2 analysis -/

/-- Closed form of what one run of the inner loop does to the candidate array below
index `m`: every index whose entry mismatches the file's segment becomes a hole. -/
def updBelow (parts : List String) : Nat → List (Option String) → List (Option String)
  | 0, lcp => lcp
  | m + 1, lcp =>
    if lcp.getD m none = some (parts.getD m "") then updBelow parts m lcp
    else (updBelow parts m lcp).set m none

/-- The smallest index below `m` at which the candidate array mismatches the file's
segments — the value the loop leaves in `end` when it exists. -/
def firstDiffBelow (parts : List String) : Nat → List (Option String) → Option Nat
  | 0, _ => none
  | m + 1, lcp =>
    match firstDiffBelow parts m lcp with
    | some i => some i
    | none => if lcp.getD m none = some (parts.getD m "") then none else some m

/-! ### Concrete states used by witnesses -/

/-- A concrete matcher (literal equality) for the C4 witness. -/
def c4Matcher : String → String → Bool := fun f p => decide (f = p)

/-- A concrete state for the C4 witness: "a.js" is both included and excluded,
"b.js" is only included. -/
def c4State : DataState :=
  { currentProject := some "/p", currentTestingType := some TestingType.e2e,
    fileExtensionToUse := "js",
    configSpecPattern := some (StrOrList.list ["a.js", "b.js"]),
    configExcludeSpecPattern := some (StrOrList.list ["a.js"]),
    specs := [], specWatcher := none }

/-- A state with a current project and e2e testing type, "js" extension, and no
configured spec pattern. -/
def c1StateNoPattern : DataState :=
  { currentProject := some "/proj", currentTestingType := some TestingType.e2e,
    fileExtensionToUse := "js", configSpecPattern := none, configExcludeSpecPattern := none,
    specs := [], specWatcher := none }

/-- The same state with the spec pattern configured to the built-in e2e default. -/
def c1StateDefaultPattern : DataState :=
  { c1StateNoPattern with
    configSpecPattern := some (StrOrList.str (defaultSpecPattern TestingType.e2e)) }

/-- A concrete state for the C5 witness: a non-default pattern and two stored specs
sharing the directory prefix "src/a". -/
def c5State : DataState :=
  { currentProject := some "/proj", currentTestingType := some TestingType.e2e,
    fileExtensionToUse := "js",
    configSpecPattern := some (StrOrList.list ["src/**/*.cy.js"]),
    configExcludeSpecPattern := none,
    specs := [FoundSpec.mk "src/a/b.cy.js", FoundSpec.mk "src/a/c.cy.js"],
    specWatcher := none }

/-! ### Helper lemmas -/

/-- `List.find?` returns the element at the first index whose test succeeds. -/
theorem find_eq_of_first_true {α : Type} (p : α → Bool) (d : α) :
    ∀ (l : List α) (i : Nat), i < l.length → p (l.getD i d) = true →
      (∀ j, j < i → p (l.getD j d) = false) →
      l.find? p = some (l.getD i d) := by
  intro l
  induction l with
  | nil => intro i hi; exact absurd hi (Nat.not_lt_zero i)
  | cons a as ih =>
    intro i hi hp hearlier
    cases i with
    | zero => simp only [List.getD_cons_zero] at hp ⊢; simp [List.find?, hp]
    | succ k =>
      have ha : p a = false := by
        have := hearlier 0 (Nat.succ_pos k)
        simpa using this
      have hk : k < as.length := Nat.lt_of_succ_lt_succ hi
      simp only [List.getD_cons_succ] at hp ⊢
      have hrec := ih k hk hp (fun j hj => by
        have := hearlier (j + 1) (Nat.succ_lt_succ hj)
        simpa using this)
      simp [List.find?, ha, hrec]

/-- `List.find?` returns `none` when the test fails everywhere. -/
theorem find_eq_none_of_all_false {α : Type} (p : α → Bool) (l : List α)
    (h : ∀ c ∈ l, p c = false) : l.find? p = none := by
  induction l with
  | nil => rfl
  | cons a as ih =>
    have ha := h a (List.mem_cons_self a as)
    simp only [List.find?, ha]
    exact ih (fun c hc => h c (List.mem_cons_of_mem a hc))

/-! ### Claim theorems: the watcher lifecycle (C8, C9, C10) -/

/-- C9: `stopSpecWatcher` never raises — whatever the close outcome, the thrown-error
component is `none` — it stays error-free when called twice in a row, and on a state
with no watcher running it is a safe no-op returning the state unchanged. -/
theorem stopSpecWatcher_never_raises_idempotent :
    ∀ (b b' : Bool) (s : DataState),
      (stopSpecWatcher b s).2 = none ∧
      (stopSpecWatcher b' (stopSpecWatcher b s).1).2 = none ∧
      stopSpecWatcher b { s with specWatcher := none } = ({ s with specWatcher := none }, none) := by
  intro b b' s
  rcases s with ⟨cp, tt, fe, csp, cesp, specs, w⟩
  cases w <;> simp [stopSpecWatcher]

/-- C8: calling `startSpecWatcher` on a state with no current project throws the
invariant-violation error (the second component models the thrown exception). -/
theorem startSpecWatcher_throws_without_project :
    ∀ (b : Bool) (h : Watcher) (pr : String) (tt : TestingType)
      (sp ex ai : List String) (s : DataState),
      (startSpecWatcher b h pr tt sp ex ai { s with currentProject := none }).2 =
        some "Cannot start spec watcher without current project" := by
  intro b h pr tt sp ex ai s
  rcases s with ⟨cp, tt', fe, csp, cesp, specs, w⟩
  cases w <;> rfl

/-- C10: `startSpecWatcher` stops any previous watcher before validating the current
project, so the failing call on a project-less state has already closed the running
watcher and reset the field to null: the error is thrown from a state whose watcher
field changed. -/
theorem startSpecWatcher_stops_previous_before_validation :
    ∀ (b : Bool) (w h : Watcher) (pr : String) (tt : TestingType)
      (sp ex ai : List String) (s : DataState),
      startSpecWatcher b h pr tt sp ex ai
          { s with currentProject := none, specWatcher := some w } =
        ({ s with currentProject := none, specWatcher := none },
          some "Cannot start spec watcher without current project") := by
  intro b w h pr tt sp ex ai s
  rfl

/-! ### Claim theorems: pattern membership (C4) -/

/-- C4: with an active project and testing type, `matchesSpecPattern` returns false
whenever the file matches some exclude pattern, regardless of the include patterns;
and when no exclude pattern matches, it returns true exactly when some include
pattern matches. -/
theorem matchesSpecPattern_exclusion_wins :
    ∀ (mmf : String → String → Bool) (s : DataState) (proj : String) (tt : TestingType)
      (f : String),
      ((∃ p ∈ (toArray s.configExcludeSpecPattern).getD [], mmf f p = true) →
        matchesSpecPattern mmf
          { s with currentProject := some proj, currentTestingType := some tt } f = false) ∧
      ((∀ p ∈ (toArray s.configExcludeSpecPattern).getD [], mmf f p = false) →
        (matchesSpecPattern mmf
            { s with currentProject := some proj, currentTestingType := some tt } f = true ↔
          ∃ p ∈ (toArray s.configSpecPattern).getD [], mmf f p = true)) := by
  intro mmf s proj tt f
  constructor
  · intro hex
    have hany : ((toArray s.configExcludeSpecPattern).getD []).any (fun pat => mmf f pat) = true := by
      rcases hex with ⟨p, hp, hm⟩
      exact List.any_eq_true.mpr ⟨p, hp, hm⟩
    simp [matchesSpecPattern, specPatterns, hany]
  · intro hall
    have hany : ((toArray s.configExcludeSpecPattern).getD []).any (fun pat => mmf f pat) = false := by
      rw [List.any_eq_false]
      intro p hp
      simp [hall p hp]
    simp [matchesSpecPattern, specPatterns, hany, List.any_eq_true]

/-- Witness for C4 at concrete inputs: exclusion wins on "a.js" although it is also
included; "b.js" matches no exclude pattern and one include pattern. -/
theorem matchesSpecPattern_exclusion_wins_witness :
    matchesSpecPattern c4Matcher c4State "a.js" = false ∧
    matchesSpecPattern c4Matcher c4State "b.js" = true := by
  constructor
  · exact (matchesSpecPattern_exclusion_wins c4Matcher c4State "/p" TestingType.e2e "a.js").1
      ⟨"a.js", by decide, by decide⟩
  · exact ((matchesSpecPattern_exclusion_wins c4Matcher c4State "/p" TestingType.e2e "b.js").2
      (by decide)).mpr ⟨"b.js", by decide, by decide⟩

/-! ### Claim theorems: defaultSpecFileName (C1, C5) -/

/-- C1 evidence: in both covered situations — no configured pattern, and first pattern
equal to the built-in default — the code returns the template with a trailing slash,
"cypress/e2e/filename.cy.js/", and not the claimed "cypress/e2e/filename.cy.js". -/
theorem defaultFilename_template_has_trailing_slash :
    defaultSpecFileName c1StateNoPattern = some "cypress/e2e/filename.cy.js/" ∧
    defaultSpecFileName c1StateDefaultPattern = some "cypress/e2e/filename.cy.js/" ∧
    defaultSpecFileName c1StateNoPattern ≠ some "cypress/e2e/filename.cy.js" := by
  refine ⟨rfl, by decide, by decide⟩

/-- C5: with a current project and testing type, a configured (non-empty) first spec
pattern different from the built-in default for the testing type, and stored specs
whose relative paths have a non-empty longest common prefix, `defaultSpecFileName`
returns exactly that longest common prefix. -/
theorem defaultSpecFileName_returns_specs_lcp :
    ∀ (s : DataState) (proj : String) (tt : TestingType) (p : String) (rest : List String),
      p ≠ "" →
      p ≠ defaultSpecPattern tt →
      getLongestCommonPrefixFromPaths (s.specs.map (fun sp => sp.relative)) ≠ "" →
      defaultSpecFileName
          { s with
            currentProject := some proj
            currentTestingType := some tt
            configSpecPattern := some (StrOrList.list (p :: rest)) } =
        some (getLongestCommonPrefixFromPaths (s.specs.map (fun sp => sp.relative))) := by
  intro s proj tt p rest hp hdef hlcp
  simp [defaultSpecFileName, specPatterns, toArray, hp, hdef, hlcp]

/-- Witness for C5 at a concrete state: the suggestion is the specs' common prefix
"src/a", not the glob-derived example and not the default template. -/
theorem defaultSpecFileName_returns_specs_lcp_witness :
    defaultSpecFileName c5State = some "src/a" := by
  have h := defaultSpecFileName_returns_specs_lcp c5State "/proj" TestingType.e2e
    "src/**/*.cy.js" [] (by decide) (by decide) (by decide)
  exact h.trans (by decide)

/-! ### Claim theorem: the glob example (C7) -/

/-- C7: on the glob "cypress/e2e/&#42;&#42;/&#42;.cy.js" with testing type e2e and
preferred extension js, `getLongestCommonPrefixFromGlob` produces the concrete string
"cypress/e2e/filename.cy.js", which ends in ".cy.js" and whose directory portion
contains the segment "e2e". -/
theorem lcpGlob_default_e2e_example :
    getLongestCommonPrefixFromGlob "cypress/e2e/**/*.cy.js" TestingType.e2e (some "js") =
      some "cypress/e2e/filename.cy.js" ∧
    strEndsWith "cypress/e2e/filename.cy.js" ".cy.js" = true ∧
    ((strSplitOnChar "cypress/e2e/filename.cy.js" '/').dropLast).contains "e2e" = true := by
  refine ⟨by decide, by decide, by decide⟩

/-! ### Claim theorem: specFileExtension selection (C6) -/

/-- C6: `transformSpec` sets `specFileExtension` to the first of the candidates
".spec", ".test", "-spec", "-test", ".cy" — each concatenated with the true file
extension, in that order — whose concatenation the absolute path ends with; and to
the true file extension when no candidate matches. -/
theorem transformSpec_specFileExtension_first_matching_suffix :
    ∀ (pr abs : String) (tt : TestingType) (cr sep : String),
      ((∀ c ∈ [".spec", ".test", "-spec", "-test", ".cy"].map (fun e => e ++ extnameOf abs),
          strEndsWith abs c = false) →
        (transformSpec ⟨pr, abs, tt, cr, "linux", sep⟩).specFileExtension = extnameOf abs) ∧
      (∀ (i : Nat),
        i < ([".spec", ".test", "-spec", "-test", ".cy"].map
          (fun e => e ++ extnameOf abs)).length →
        strEndsWith abs (([".spec", ".test", "-spec", "-test", ".cy"].map
          (fun e => e ++ extnameOf abs)).getD i "") = true →
        (∀ (j : Nat), j < i →
          strEndsWith abs (([".spec", ".test", "-spec", "-test", ".cy"].map
            (fun e => e ++ extnameOf abs)).getD j "") = false) →
        (transformSpec ⟨pr, abs, tt, cr, "linux", sep⟩).specFileExtension =
          ([".spec", ".test", "-spec", "-test", ".cy"].map
            (fun e => e ++ extnameOf abs)).getD i "") := by
  intro pr abs tt cr sep
  have hsfe : (transformSpec ⟨pr, abs, tt, cr, "linux", sep⟩).specFileExtension =
      (([".spec", ".test", "-spec", "-test", ".cy"].map (fun e => e ++ extnameOf abs)).find?
        (fun e => strEndsWith abs e)).getD (extnameOf abs) := rfl
  constructor
  · intro hall
    rw [hsfe, find_eq_none_of_all_false _ _ hall]
    rfl
  · intro i hi hp hearlier
    rw [hsfe, find_eq_of_first_true _ _ _ i hi hp hearlier]
    rfl

/-- Witness for C6 at concrete paths: "/r/a.cy.js" selects the fifth candidate
".cy.js"; "/r/b.js" matches no candidate and falls back to the true extension. -/
theorem transformSpec_specFileExtension_first_matching_suffix_witness :
    (transformSpec ⟨"/r", "/r/a.cy.js", TestingType.e2e, "/r", "linux", "/"⟩).specFileExtension =
      ".cy.js" ∧
    (transformSpec ⟨"/r", "/r/b.js", TestingType.e2e, "/r", "linux", "/"⟩).specFileExtension =
      ".js" := by
  constructor
  · have h := (transformSpec_specFileExtension_first_matching_suffix "/r" "/r/a.cy.js"
      TestingType.e2e "/r" "/").2 4 (by decide) (by decide) (by decide)
    exact h.trans (by decide)
  · have h := (transformSpec_specFileExtension_first_matching_suffix "/r" "/r/b.js"
      TestingType.e2e "/r" "/").1 (by decide)
    exact h.trans (by decide)

/-! ### Properties of beginsWith / firstIdxOfSub / replaceFirstAux, for C3 -/

/-- A successful `beginsWith` test pins down the corresponding take. -/
theorem take_eq_of_beginsWith : ∀ (p s : List Char), beginsWith p s = true → s.take p.length = p := by
  intro p
  induction p with
  | nil => intro s _; rfl
  | cons a as ih =>
    intro s h
    cases s with
    | nil => exact absurd h (by simp [beginsWith])
    | cons b bs =>
      simp only [beginsWith] at h
      by_cases hab : a = b
      · subst hab
        simp only [if_pos rfl] at h
        simpa [List.take] using ih bs h
      · rw [if_neg hab] at h
        exact absurd h (by simp)

/-- A pattern that begins a list is no longer than it. -/
theorem length_le_of_beginsWith : ∀ (p s : List Char), beginsWith p s = true → p.length ≤ s.length := by
  intro p
  induction p with
  | nil => intro s _; exact Nat.zero_le _
  | cons a as ih =>
    intro s h
    cases s with
    | nil => exact absurd h (by simp [beginsWith])
    | cons b bs =>
      simp only [beginsWith] at h
      by_cases hab : a = b
      · rw [if_pos hab] at h
        exact Nat.succ_le_succ (ih bs h)
      · rw [if_neg hab] at h
        exact absurd h (by simp)

/-- The first occurrence index really is an occurrence. -/
theorem beginsWith_drop_of_firstIdx :
    ∀ (s pat : List Char) (k : Nat), firstIdxOfSub pat s = some k →
      beginsWith pat (s.drop k) = true := by
  intro s
  induction s with
  | nil =>
    intro pat k h
    simp only [firstIdxOfSub] at h
    by_cases hb : beginsWith pat [] = true
    · rw [if_pos hb] at h
      cases h
      simpa using hb
    · rw [if_neg hb] at h
      cases h
  | cons c rest ih =>
    intro pat k h
    simp only [firstIdxOfSub] at h
    by_cases hb : beginsWith pat (c :: rest) = true
    · rw [if_pos hb] at h
      cases h
      simpa using hb
    · rw [if_neg hb] at h
      rcases Option.map_eq_some'.mp h with ⟨k', hk', rfl⟩
      simpa [List.drop] using ih pat k' hk'

/-- `replaceFirstAux` splices the replacement in at the first occurrence index. -/
theorem replaceFirstAux_eq_of_firstIdx :
    ∀ (s pat repl : List Char) (k : Nat), firstIdxOfSub pat s = some k →
      replaceFirstAux pat repl s = s.take k ++ repl ++ s.drop (k + pat.length) := by
  intro s
  induction s with
  | nil =>
    intro pat repl k h
    simp only [firstIdxOfSub] at h
    by_cases hb : beginsWith pat [] = true
    · rw [if_pos hb] at h
      cases h
      simp [replaceFirstAux, hb]
    · rw [if_neg hb] at h
      cases h
  | cons c rest ih =>
    intro pat repl k h
    simp only [firstIdxOfSub] at h
    by_cases hb : beginsWith pat (c :: rest) = true
    · rw [if_pos hb] at h
      cases h
      simp [replaceFirstAux, hb]
    · rw [if_neg hb] at h
      rcases Option.map_eq_some'.mp h with ⟨k', hk', rfl⟩
      have := ih pat repl k' hk'
      simp only [replaceFirstAux, hb, if_false, this]
      simp [List.take_succ_cons, Nat.succ_add, List.drop_succ_cons]

/-- When the first occurrence of `pat` in `s` sits exactly at the end, removing it
(JS replace-first with the empty replacement) and appending it back restores `s`. -/
theorem replaceFirst_append_self (s pat : List Char)
    (h : firstIdxOfSub pat s = some (s.length - pat.length)) :
    replaceFirstAux pat [] s ++ pat = s := by
  have hbw := beginsWith_drop_of_firstIdx s pat (s.length - pat.length) h
  have hlen := length_le_of_beginsWith pat _ hbw
  rw [List.length_drop] at hlen
  have hple : pat.length ≤ s.length := le_trans hlen (Nat.sub_le _ _)
  have hdrop : s.drop (s.length - pat.length) = pat := by
    have htake := take_eq_of_beginsWith pat _ hbw
    have hdl : (s.drop (s.length - pat.length)).length = pat.length := by
      rw [List.length_drop]
      omega
    have htake2 : (s.drop (s.length - pat.length)).take
        ((s.drop (s.length - pat.length)).length) = pat := by
      rw [hdl]
      exact htake
    rwa [List.take_length] at htake2
  have hrepl := replaceFirstAux_eq_of_firstIdx s pat [] (s.length - pat.length) h
  have hall : s.length - pat.length + pat.length = s.length := by omega
  rw [hrepl, hall, List.drop_length, List.append_nil, List.append_nil]
  calc s.take (s.length - pat.length) ++ pat
      = s.take (s.length - pat.length) ++ s.drop (s.length - pat.length) := by rw [hdrop]
    _ = s := List.take_append_drop _ _

/-! ### Claim theorems: the baseName round-trip (C3) -/

/-- C3 counterexample: for the absolute path "/p/x.cy.jsy.cy.js" the selected
`specFileExtension` ".cy.js" ends with the file extension ".js", yet
`baseName ≠ fileName ++ specFileExtension`, because JS replace removes the first
occurrence of ".cy.js", which is not the suffix occurrence. -/
theorem transformSpec_baseName_roundtrip_counterexample :
    strEndsWith
        (transformSpec ⟨"/p", "/p/x.cy.jsy.cy.js", TestingType.e2e, "/p", "linux", "/"⟩).specFileExtension
        (transformSpec ⟨"/p", "/p/x.cy.jsy.cy.js", TestingType.e2e, "/p", "linux", "/"⟩).fileExtension = true ∧
    (transformSpec ⟨"/p", "/p/x.cy.jsy.cy.js", TestingType.e2e, "/p", "linux", "/"⟩).baseName ≠
      (transformSpec ⟨"/p", "/p/x.cy.jsy.cy.js", TestingType.e2e, "/p", "linux", "/"⟩).fileName ++
        (transformSpec ⟨"/p", "/p/x.cy.jsy.cy.js", TestingType.e2e, "/p", "linux", "/"⟩).specFileExtension := by
  exact ⟨by decide, by decide⟩

/-- C3 amended: the round-trip `baseName = fileName ++ specFileExtension` holds
whenever `specFileExtension` ends with `fileExtension` and, additionally, the first
occurrence of `specFileExtension` inside `baseName` is its suffix occurrence (the
condition the counterexample shows is needed). -/
theorem transformSpec_baseName_roundtrip :
    ∀ (pr abs : String) (tt : TestingType) (cr sep : String),
      strEndsWith (transformSpec ⟨pr, abs, tt, cr, "linux", sep⟩).specFileExtension
        (transformSpec ⟨pr, abs, tt, cr, "linux", sep⟩).fileExtension = true →
      firstIdxOfSub (transformSpec ⟨pr, abs, tt, cr, "linux", sep⟩).specFileExtension.data
          (transformSpec ⟨pr, abs, tt, cr, "linux", sep⟩).baseName.data =
        some ((transformSpec ⟨pr, abs, tt, cr, "linux", sep⟩).baseName.data.length -
          (transformSpec ⟨pr, abs, tt, cr, "linux", sep⟩).specFileExtension.data.length) →
      (transformSpec ⟨pr, abs, tt, cr, "linux", sep⟩).baseName =
        (transformSpec ⟨pr, abs, tt, cr, "linux", sep⟩).fileName ++
          (transformSpec ⟨pr, abs, tt, cr, "linux", sep⟩).specFileExtension := by
  intro pr abs tt cr sep _ hfirst
  have hlist := replaceFirst_append_self
    (transformSpec ⟨pr, abs, tt, cr, "linux", sep⟩).baseName.data
    (transformSpec ⟨pr, abs, tt, cr, "linux", sep⟩).specFileExtension.data hfirst
  have hstep : (transformSpec ⟨pr, abs, tt, cr, "linux", sep⟩).fileName ++
      (transformSpec ⟨pr, abs, tt, cr, "linux", sep⟩).specFileExtension =
      String.mk (replaceFirstAux
        (transformSpec ⟨pr, abs, tt, cr, "linux", sep⟩).specFileExtension.data []
        (transformSpec ⟨pr, abs, tt, cr, "linux", sep⟩).baseName.data ++
        (transformSpec ⟨pr, abs, tt, cr, "linux", sep⟩).specFileExtension.data) := rfl
  rw [hstep, hlist]

/-- Witness for C3 at a concrete path: for "/proj/cypress/e2e/foo.cy.js" both
hypotheses hold and the round-trip gives "foo.cy.js" = "foo" ++ ".cy.js". -/
theorem transformSpec_baseName_roundtrip_witness :
    strEndsWith
        (transformSpec ⟨"/proj", "/proj/cypress/e2e/foo.cy.js", TestingType.e2e, "/proj", "linux", "/"⟩).specFileExtension
        (transformSpec ⟨"/proj", "/proj/cypress/e2e/foo.cy.js", TestingType.e2e, "/proj", "linux", "/"⟩).fileExtension = true ∧
    (transformSpec ⟨"/proj", "/proj/cypress/e2e/foo.cy.js", TestingType.e2e, "/proj", "linux", "/"⟩).baseName =
      (transformSpec ⟨"/proj", "/proj/cypress/e2e/foo.cy.js", TestingType.e2e, "/proj", "linux", "/"⟩).fileName ++
        (transformSpec ⟨"/proj", "/proj/cypress/e2e/foo.cy.js", TestingType.e2e, "/proj", "linux", "/"⟩).specFileExtension := by
  refine ⟨by decide, ?_⟩
  exact transformSpec_baseName_roundtrip "/proj" "/proj/cypress/e2e/foo.cy.js"
    TestingType.e2e "/proj" "/" (by decide) (by decide)

/-! ### The inner loop of getLongestCommonPrefixFromPaths, characterised (C2) -/

/-- Reading `getD` away from a `set` index is unchanged. -/
theorem getD_set_ne {α : Type} (l : List α) (j i : Nat) (v d : α) (hne : i ≠ j) :
    (l.set j v).getD i d = l.getD i d := by
  simp only [List.getD_eq_getElem?_getD]
  rw [List.getElem?_set_ne (Ne.symm hne)]

/-- Setting an index to `none` makes its `getD none` read `none`, in or out of range. -/
theorem getD_set_self_none {α : Type} (l : List (Option α)) (m : Nat) :
    (l.set m none).getD m none = none := by
  induction l generalizing m with
  | nil => rfl
  | cons a as ih =>
    cases m with
    | zero => rfl
    | succ k => simpa [List.getD] using ih k

/-- `updBelow` does not change the length. -/
theorem updBelow_length (parts : List String) :
    ∀ (m : Nat) (lcp : List (Option String)), (updBelow parts m lcp).length = lcp.length := by
  intro m
  induction m with
  | zero => intro lcp; rfl
  | succ m ih =>
    intro lcp
    simp only [updBelow]
    by_cases hc : lcp.getD m none = some (parts.getD m "")
    · rw [if_pos hc]
      exact ih lcp
    · rw [if_neg hc, List.length_set]
      exact ih lcp

/-- A `set` at or above the scanned range commutes out of `updBelow`. -/
theorem updBelow_set_high (parts : List String) :
    ∀ (m j : Nat) (lcp : List (Option String)) (v : Option String), m ≤ j →
      updBelow parts m (lcp.set j v) = (updBelow parts m lcp).set j v := by
  intro m
  induction m with
  | zero => intro j lcp v _; rfl
  | succ m ih =>
    intro j lcp v hmj
    have hne : m ≠ j := by omega
    have hget : (lcp.set j v).getD m none = lcp.getD m none := getD_set_ne lcp j m v none hne
    simp only [updBelow]
    rw [hget]
    by_cases hc : lcp.getD m none = some (parts.getD m "")
    · rw [if_pos hc, if_pos hc]
      exact ih j lcp v (by omega)
    · rw [if_neg hc, if_neg hc, ih j lcp v (by omega)]
      exact List.set_comm v none (updBelow parts m lcp) (Ne.symm hne)

/-- A `set` at or above the scanned range does not change `firstDiffBelow`. -/
theorem firstDiffBelow_set_high (parts : List String) :
    ∀ (m j : Nat) (lcp : List (Option String)) (v : Option String), m ≤ j →
      firstDiffBelow parts m (lcp.set j v) = firstDiffBelow parts m lcp := by
  intro m
  induction m with
  | zero => intro j lcp v _; rfl
  | succ m ih =>
    intro j lcp v hmj
    have hne : m ≠ j := by omega
    have hget : (lcp.set j v).getD m none = lcp.getD m none := getD_set_ne lcp j m v none hne
    simp only [firstDiffBelow]
    rw [hget, ih j lcp v (by omega)]

/-- One downward run of the inner loop computes `updBelow` together with the smallest
mismatching index (or keeps the incoming bound when every scanned index matches). -/
theorem scanFrom_eq (parts : List String) :
    ∀ (m : Nat) (lcp : List (Option String)) (e : Nat),
      scanFrom parts m (lcp, e) =
        (updBelow parts m lcp, (firstDiffBelow parts m lcp).getD e) := by
  intro m
  induction m with
  | zero => intro lcp e; rfl
  | succ m ih =>
    intro lcp e
    by_cases hc : lcp.getD m none = some (parts.getD m "")
    · have hstep : lcpStep parts (lcp, e) m = (lcp, e) := by
        simp only [lcpStep]
        rw [if_pos hc]
      rw [scanFrom, hstep, ih]
      simp only [updBelow, firstDiffBelow]
      rw [if_pos hc, if_pos hc]
      cases hfd : firstDiffBelow parts m lcp <;> rfl
    · have hstep : lcpStep parts (lcp, e) m = (lcp.set m none, m) := by
        simp only [lcpStep]
        rw [if_neg hc]
      rw [scanFrom, hstep, ih]
      rw [updBelow_set_high parts m m lcp none (le_refl m)]
      rw [firstDiffBelow_set_high parts m m lcp none (le_refl m)]
      simp only [updBelow, firstDiffBelow]
      rw [if_neg hc, if_neg hc]
      cases hfd : firstDiffBelow parts m lcp <;> rfl

/-- Pointwise reading of `updBelow`: a hole appears exactly at the scanned indices
whose original entry mismatches. -/
theorem updBelow_getD (parts : List String) :
    ∀ (m : Nat) (lcp : List (Option String)) (i : Nat),
      (updBelow parts m lcp).getD i none =
        if i < m ∧ ¬ lcp.getD i none = some (parts.getD i "") then none
        else lcp.getD i none := by
  intro m
  induction m with
  | zero =>
    intro lcp i
    have : ¬ (i < 0 ∧ ¬ lcp.getD i none = some (parts.getD i "")) := by omega
    rw [updBelow, if_neg this]
  | succ m ih =>
    intro lcp i
    simp only [updBelow]
    by_cases hc : lcp.getD m none = some (parts.getD m "")
    · rw [if_pos hc, ih lcp i]
      by_cases him : i < m
      · have h1 : (i < m ∧ ¬ lcp.getD i none = some (parts.getD i "")) ↔
            (i < m + 1 ∧ ¬ lcp.getD i none = some (parts.getD i "")) := by
          constructor
          · rintro ⟨h, h2⟩; exact ⟨by omega, h2⟩
          · rintro ⟨_, h2⟩; exact ⟨him, h2⟩
        rw [if_congr h1 rfl rfl]
      · by_cases him1 : i < m + 1
        · have hieq : i = m := by omega
          subst hieq
          rw [if_neg (fun h => Nat.lt_irrefl i h.1), if_neg (fun h => h.2 hc)]
        · rw [if_neg (by omega), if_neg (by omega)]
    · rw [if_neg hc]
      by_cases him : i = m
      · subst him
        rw [getD_set_self_none, if_pos ⟨by omega, hc⟩]
      · rw [getD_set_ne _ _ _ _ _ him, ih lcp i]
        by_cases hlt : i < m
        · have h1 : (i < m ∧ ¬ lcp.getD i none = some (parts.getD i "")) ↔
              (i < m + 1 ∧ ¬ lcp.getD i none = some (parts.getD i "")) := by
            constructor
            · rintro ⟨h, h2⟩; exact ⟨by omega, h2⟩
            · rintro ⟨_, h2⟩; exact ⟨hlt, h2⟩
          rw [if_congr h1 rfl rfl]
        · have h1 : ¬ (i < m ∧ ¬ lcp.getD i none = some (parts.getD i "")) := by
            intro h; exact hlt h.1
          have h2 : ¬ (i < m + 1 ∧ ¬ lcp.getD i none = some (parts.getD i "")) := by
            intro h
            have : i = m := by omega
            exact him this
          rw [if_neg h1, if_neg h2]

/-- `firstDiffBelow` is `none` when every scanned index matches. -/
theorem firstDiffBelow_eq_none (parts : List String) :
    ∀ (m : Nat) (lcp : List (Option String)),
      (∀ i, i < m → lcp.getD i none = some (parts.getD i "")) →
      firstDiffBelow parts m lcp = none := by
  intro m
  induction m with
  | zero => intro lcp _; rfl
  | succ m ih =>
    intro lcp h
    simp only [firstDiffBelow]
    rw [ih lcp (fun i hi => h i (by omega))]
    rw [if_pos (h m (by omega))]

/-- `firstDiffBelow` finds the smallest mismatching index. -/
theorem firstDiffBelow_eq_some (parts : List String) :
    ∀ (m : Nat) (lcp : List (Option String)) (i : Nat),
      i < m → ¬ lcp.getD i none = some (parts.getD i "") →
      (∀ j, j < i → lcp.getD j none = some (parts.getD j "")) →
      firstDiffBelow parts m lcp = some i := by
  intro m
  induction m with
  | zero => intro lcp i hi; omega
  | succ m ih =>
    intro lcp i hi hmis hbelow
    simp only [firstDiffBelow]
    by_cases him : i = m
    · have hmis' : ¬ lcp.getD m none = some (parts.getD m "") := by
        rw [← him]; exact hmis
      have hbelow' : ∀ j, j < m → lcp.getD j none = some (parts.getD j "") :=
        fun j hj => hbelow j (by omega)
      rw [firstDiffBelow_eq_none parts m lcp hbelow', if_neg hmis']
      exact congrArg some him.symm
    · have hi' : i < m := by omega
      rw [ih lcp i hi' hmis hbelow]

/-- The common prefix is no longer than the left list. -/
theorem cpl_le_left : ∀ (a b : List String), commonPrefixLen a b ≤ a.length := by
  intro a
  induction a with
  | nil => intro b; cases b <;> simp [commonPrefixLen]
  | cons x xs ih =>
    intro b
    cases b with
    | nil => simp [commonPrefixLen]
    | cons y ys =>
      simp only [commonPrefixLen]
      by_cases hxy : x = y
      · rw [if_pos hxy]
        have := ih ys
        simp only [List.length_cons]
        omega
      · rw [if_neg hxy]
        omega

/-- The common prefix is no longer than the right list. -/
theorem cpl_le_right : ∀ (a b : List String), commonPrefixLen a b ≤ b.length := by
  intro a
  induction a with
  | nil => intro b; cases b <;> simp [commonPrefixLen]
  | cons x xs ih =>
    intro b
    cases b with
    | nil => simp [commonPrefixLen]
    | cons y ys =>
      simp only [commonPrefixLen]
      by_cases hxy : x = y
      · rw [if_pos hxy]
        have := ih ys
        simp only [List.length_cons]
        omega
      · rw [if_neg hxy]
        omega

/-- Inside the common prefix the two lists agree. -/
theorem cpl_agree : ∀ (a b : List String) (i : Nat), i < commonPrefixLen a b →
    a.getD i "" = b.getD i "" := by
  intro a
  induction a with
  | nil => intro b i h; cases b <;> simp [commonPrefixLen] at h
  | cons x xs ih =>
    intro b i h
    cases b with
    | nil => simp [commonPrefixLen] at h
    | cons y ys =>
      simp only [commonPrefixLen] at h
      by_cases hxy : x = y
      · rw [if_pos hxy] at h
        cases i with
        | zero => simpa using hxy
        | succ k =>
          simp only [List.getD_cons_succ]
          exact ih ys k (by omega)
      · rw [if_neg hxy] at h
        omega

/-- Right after the common prefix, when both lists continue, they disagree. -/
theorem cpl_mismatch : ∀ (a b : List String),
    commonPrefixLen a b < a.length → commonPrefixLen a b < b.length →
    ¬ a.getD (commonPrefixLen a b) "" = b.getD (commonPrefixLen a b) "" := by
  intro a
  induction a with
  | nil => intro b h _; simp at h
  | cons x xs ih =>
    intro b ha hb
    cases b with
    | nil => simp at hb
    | cons y ys =>
      simp only [commonPrefixLen] at ha hb ⊢
      by_cases hxy : x = y
      · rw [if_pos hxy] at ha hb ⊢
        simp only [List.getD_cons_succ]
        exact ih ys (by simpa using ha) (by simpa using hb)
      · rw [if_neg hxy] at ha hb ⊢
        simpa using hxy

/-- One full file scan, under the loop invariants — entries below the bound hold the
base path's segments, and a strict bound sits on a hole: the scan performs `updBelow`
and moves the bound to the minimum of the old bound and the common-prefix length
against the new file, preserving both invariants.  All paths have the same number of
segments here. -/
theorem scanFile_spec (base parts : List String) (lcp : List (Option String)) (e : Nat)
    (hp : parts.length = base.length) (hl : lcp.length = base.length)
    (he : e ≤ base.length)
    (hI1 : ∀ i, i < e → lcp.getD i none = some (base.getD i ""))
    (hI3 : e < base.length → lcp.getD e none = none) :
    scanFrom parts parts.length (lcp, e) =
      (updBelow parts parts.length lcp, min e (commonPrefixLen base parts)) ∧
    (updBelow parts parts.length lcp).length = base.length ∧
    (∀ i, i < min e (commonPrefixLen base parts) →
      (updBelow parts parts.length lcp).getD i none = some (base.getD i "")) ∧
    (min e (commonPrefixLen base parts) < base.length →
      (updBelow parts parts.length lcp).getD (min e (commonPrefixLen base parts)) none =
        none) := by
  have hc_le : commonPrefixLen base parts ≤ base.length := cpl_le_left base parts
  have key1 : ∀ i, i < min e (commonPrefixLen base parts) →
      lcp.getD i none = some (parts.getD i "") := by
    intro i hi
    have h1 := hI1 i (lt_of_lt_of_le hi (min_le_left _ _))
    have h2 := cpl_agree base parts i (lt_of_lt_of_le hi (min_le_right _ _))
    rw [h1, h2]
  have key2 : min e (commonPrefixLen base parts) < base.length →
      ¬ lcp.getD (min e (commonPrefixLen base parts)) none = some
        (parts.getD (min e (commonPrefixLen base parts)) "") := by
    intro hmin
    by_cases hce : commonPrefixLen base parts < e
    · have hmeq : min e (commonPrefixLen base parts) = commonPrefixLen base parts := by omega
      rw [hmeq]
      have hcn : commonPrefixLen base parts < base.length := by omega
      have hcp : commonPrefixLen base parts < parts.length := by omega
      have hmis := cpl_mismatch base parts hcn hcp
      rw [hI1 _ hce]
      intro hcontra
      exact hmis (Option.some.inj hcontra)
    · have hmeq : min e (commonPrefixLen base parts) = e := by omega
      rw [hmeq]
      have hen : e < base.length := by omega
      rw [hI3 hen]
      simp
  have hfd : (firstDiffBelow parts parts.length lcp).getD e =
      min e (commonPrefixLen base parts) := by
    by_cases hmin : min e (commonPrefixLen base parts) < base.length
    · rw [firstDiffBelow_eq_some parts parts.length lcp
        (min e (commonPrefixLen base parts)) (by omega) (key2 hmin) key1]
      rfl
    · rw [firstDiffBelow_eq_none parts parts.length lcp
        (fun i hi => key1 i (by omega))]
      simp only [Option.getD_none]
      omega
  refine ⟨?_, (updBelow_length parts parts.length lcp).trans hl, ?_, ?_⟩
  · rw [scanFrom_eq parts parts.length lcp e, hfd]
  · intro i hi
    rw [updBelow_getD parts parts.length lcp i, if_neg (fun h => h.2 (key1 i hi))]
    exact hI1 i (lt_of_lt_of_le hi (min_le_left _ _))
  · intro hmin
    rw [updBelow_getD parts parts.length lcp (min e (commonPrefixLen base parts)),
      if_pos ⟨by omega, key2 hmin⟩]

/-- Reading `map some` of a list of segments. -/
theorem getD_map_some : ∀ (base : List String) (i : Nat), i < base.length →
    (base.map some).getD i none = some (base.getD i "") := by
  intro base
  induction base with
  | nil => intro i hi; simp at hi
  | cons x xs ih =>
    intro i hi
    cases i with
    | zero => rfl
    | succ k =>
      simp only [List.map_cons, List.getD_cons_succ]
      exact ih k (by simpa using hi)

/-- The surviving entries of the candidate list, read back as strings, are the base
path's leading segments. -/
theorem take_map_getD : ∀ (lcp : List (Option String)) (e : Nat) (base : List String),
    e ≤ lcp.length → e ≤ base.length →
    (∀ i, i < e → lcp.getD i none = some (base.getD i "")) →
    (lcp.take e).map (fun o => o.getD "") = base.take e := by
  intro lcp
  induction lcp with
  | nil =>
    intro e base hle _ _
    have : e = 0 := by simpa using hle
    subst this
    simp
  | cons x xs ih =>
    intro e base hle hbe h
    cases e with
    | zero => simp
    | succ k =>
      cases base with
      | nil => simp at hbe
      | cons y ys =>
        have hx : x = some y := by simpa using h 0 (by omega)
        simp only [List.take_succ_cons, List.map_cons]
        rw [hx]
        have htail := ih k ys (by simpa using hle) (by simpa using hbe)
          (fun i hi => by simpa using h (i + 1) (by omega))
        simp only [Option.getD_some]
        rw [htail]

/-- Folding a running minimum never exceeds the start value. -/
theorem foldl_min_le (g : String → Nat) : ∀ (fs : List String) (acc : Nat),
    fs.foldl (fun a f => min a (g f)) acc ≤ acc := by
  intro fs
  induction fs with
  | nil => intro acc; exact le_refl acc
  | cons f fs ih =>
    intro acc
    exact le_trans (ih (min acc (g f))) (min_le_left _ _)

/-- Splitting never yields an empty list of segments. -/
theorem splitParts_length_pos : ∀ (cs : List Char), 0 < (splitParts cs).length := by
  intro cs
  cases cs with
  | nil => simp [splitParts]
  | cons c rest =>
    by_cases hsep : isSepChar c = true
    · simp [splitParts, hsep]
    · simp only [splitParts, hsep]
      cases hs : splitParts rest <;> simp

/-- A path always has at least one segment. -/
theorem getPathParts_length_pos (p : String) : 0 < (getPathParts p).length := by
  simpa [getPathParts] using splitParts_length_pos p.data

/-- The outer loop, run from an invariant-satisfying state, returns the base path's
leading segments up to the running minimum of common-prefix lengths, joined. -/
theorem lcpFiles_spec (base : List String) :
    ∀ (fs : List String) (lcp : List (Option String)) (e : Nat),
      0 < base.length →
      (∀ f ∈ fs, (getPathParts f).length = base.length) →
      lcp.length = base.length →
      e ≤ base.length →
      (∀ i, i < e → lcp.getD i none = some (base.getD i "")) →
      (e < base.length → lcp.getD e none = none) →
      lcpFiles fs lcp e =
        String.intercalate "/" (base.take
          (fs.foldl (fun acc f => min acc (commonPrefixLen base (getPathParts f))) e)) := by
  intro fs
  induction fs with
  | nil =>
    intro lcp e hb hf hl he hI1 hI3
    simp only [lcpFiles, List.foldl]
    congr 1
    exact take_map_getD lcp e base (by omega) he hI1
  | cons f fs ih =>
    intro lcp e hb hf hl he hI1 hI3
    have hpf : (getPathParts f).length = base.length := hf f (List.mem_cons_self f fs)
    obtain ⟨hscan, hlen2, hI1', hI3'⟩ :=
      scanFile_spec base (getPathParts f) lcp e hpf hl he hI1 hI3
    simp only [lcpFiles, hscan]
    rw [if_neg (by rw [hlen2]; omega)]
    rw [ih (updBelow (getPathParts f) (getPathParts f).length lcp)
      (min e (commonPrefixLen base (getPathParts f))) hb
      (fun q hq => hf q (List.mem_cons_of_mem f hq)) hlen2
      (by have := min_le_left e (commonPrefixLen base (getPathParts f)); omega)
      hI1' hI3']
    rfl

/-- C2 counterexample: on the two-element list ["/a/b/c.js", "/a/b"] the function
returns the entire first path, which does not even begin the second path, so it is no
directory prefix shared by all of the paths. -/
theorem lcpPaths_counterexample :
    getLongestCommonPrefixFromPaths ["/a/b/c.js", "/a/b"] = "/a/b/c.js" ∧
    strStartsWith "/a/b" (getLongestCommonPrefixFromPaths ["/a/b/c.js", "/a/b"]) = false := by
  exact ⟨by decide, by decide⟩

/-- C2 amended: for every list of two or more paths all having the same number of
segments, `getLongestCommonPrefixFromPaths` returns the longest common segment prefix
of the paths, joined with the separator. -/
theorem lcpPaths_equal_depth_common_segments (p : String) (ps : List String)
    (hne : ps ≠ [])
    (hlen : ∀ q ∈ ps, (getPathParts q).length = (getPathParts p).length) :
    getLongestCommonPrefixFromPaths (p :: ps) =
      String.intercalate "/" ((getPathParts p).take
        (ps.foldl (fun acc q => min acc (commonPrefixLen (getPathParts p) (getPathParts q)))
          (getPathParts p).length)) := by
  by_cases hp : p = ""
  · subst hp
    have hL : getLongestCommonPrefixFromPaths ("" :: ps) = "" := by
      simp [getLongestCommonPrefixFromPaths]
    rw [hL]
    have hbase : getPathParts "" = [""] := rfl
    rw [hbase]
    have hk := foldl_min_le (fun q => commonPrefixLen [""] (getPathParts q)) ps
      ([""] : List String).length
    simp only [List.length_cons, List.length_nil] at hk
    have hcases : ps.foldl (fun acc q => min acc (commonPrefixLen [""] (getPathParts q)))
        (([""] : List String).length) = 0 ∨
        ps.foldl (fun acc q => min acc (commonPrefixLen [""] (getPathParts q)))
        (([""] : List String).length) = 1 := by
      simp only [List.length_cons, List.length_nil]
      omega
    rcases hcases with h | h <;> rw [h] <;> rfl
  · cases ps with
    | nil => exact absurd rfl hne
    | cons f fs =>
      have hstep : getLongestCommonPrefixFromPaths (p :: f :: fs) =
          lcpFiles (f :: fs) ((getPathParts p).map some) (getPathParts p).length := by
        simp only [getLongestCommonPrefixFromPaths]
        rw [if_neg hp, if_neg (by simp)]
      rw [hstep]
      exact lcpFiles_spec (getPathParts p) (f :: fs) _ _ (getPathParts_length_pos p) hlen
        (by simp) (le_refl _)
        (fun i hi => getD_map_some (getPathParts p) i hi)
        (fun h => absurd h (lt_irrefl _))

/-- Witness for C2 at the two quoted examples, which have equal segment counts: the
longest common segment prefixes are "/a/b" and "/a". -/
theorem lcpPaths_equal_depth_common_segments_witness :
    getLongestCommonPrefixFromPaths ["/a/b/c.js", "/a/b/d.js"] = "/a/b" ∧
    getLongestCommonPrefixFromPaths ["/a/b/c.js", "/a/x/d.js"] = "/a" := by
  constructor
  · have h := lcpPaths_equal_depth_common_segments "/a/b/c.js" ["/a/b/d.js"]
      (by decide) (by decide)
    exact h.trans (by decide)
  · have h := lcpPaths_equal_depth_common_segments "/a/b/c.js" ["/a/x/d.js"]
      (by decide) (by decide)
    exact h.trans (by decide)

end Cypress
